import Mathlib

/-!
Verification development for the checkpointed conversation thread manager
(backend/agent.py and backend/app.py).  Python strings are modelled as lists
of characters (`Str`); message content, stream chunks, stream events and the
two durable stores (checkpoint log, writes table, thread-metadata table) are
modelled as explicit data.  Exceptions raised by storage calls are modelled
by explicit fault parameters.
-/

namespace ChatApp

/-- Python strings, modelled as their sequence of characters. -/
abbrev Str := List Char

/-- Helper to write a `Str` from a Lean string literal. -/
def chars (s : String) : Str := s.toList

/-! ## Message content and text extraction (agent.py `_extract_content`) -/

/-- One element of a content-block list: a dict carrying a "text" field,
a bare string, or anything else (dict without "text", other objects). -/
inductive Block where
  | textBlock (t : Str)
  | strBlock (t : Str)
  | other
deriving DecidableEq

/-- Message content: either a plain string or a list of blocks. -/
inductive Content where
  | str (s : Str)
  | blocks (bs : List Block)
deriving DecidableEq

/-- Text carried by a block, if any: the "text" field of a dict block that
has one, or a bare string block itself. -/
def blockText : Block → Option Str
  | .textBlock t => some t
  | .strBlock t => some t
  | .other => none

/-- Loop body of `_extract_content`: collect `block["text"]` for dict blocks
with a "text" key and bare string blocks, ignore everything else. -/
def extractParts : List Block → List Str
  | [] => []
  | .textBlock t :: rest => t :: extractParts rest
  | .strBlock t :: rest => t :: extractParts rest
  | .other :: rest => extractParts rest

/-- agent.py `_extract_content`: a list of blocks becomes the concatenation
of its collected text parts; a plain string is returned unchanged. -/
def _extract_content : Content → Str
  | .str s => s
  | .blocks bs => (extractParts bs).flatten

/-- Python truthiness of a content value (`if title:`): nonempty string or
nonempty block list. -/
def Content.truthy : Content → Bool
  | .str s => !s.isEmpty
  | .blocks bs => !bs.isEmpty

/-! ## Streaming (agent.py `search_streaming`, app.py `api_chat`) -/

/-- One item pulled from the engine stream: the message class name
(`type(message_chunk).__name__`) and its `content` attribute
(`none` models a missing/None content). -/
structure Chunk where
  typeName : String
  content : Option Content
deriving DecidableEq

/-- Filter in the streaming loop: only `AIMessage` / `AIMessageChunk` items
are processed. -/
def isAI (c : Chunk) : Bool :=
  c.typeName == "AIMessage" || c.typeName == "AIMessageChunk"

/-- agent.py `_extract_message_text`: `None` content gives no text,
otherwise the extracted content text. -/
def _extract_message_text (c : Chunk) : Option Str :=
  match c.content with
  | none => none
  | some content => some (_extract_content content)

/-- The per-chunk filtering in `search_streaming`'s loop: skip non-AI
chunks, chunks without content, and chunks whose text is falsy
(`if not text: continue`); otherwise return the cumulative text. -/
def chunkTextOf (c : Chunk) : Option Str :=
  if !(isAI c) then none
  else
    match _extract_message_text c with
    | none => none
    | some text => if text.isEmpty then none else some text

/-- Delta computation of the streaming loop: the suffix after
`last_emitted` when the new cumulative text extends it
(`text.startswith(last_emitted)`), otherwise the entire text. -/
def pyDelta (last text : Str) : Str :=
  if last.isPrefixOf text then text.drop last.length else text

/-- Streaming diff loop of `search_streaming`: given the current
`last_emitted`, process the remaining chunks and return the emitted delta
contents (in order) together with the `last_emitted` value at loop exit. -/
def processChunks (last : Str) : List Chunk → List Str × Str
  | [] => ([], last)
  | c :: rest =>
    match chunkTextOf c with
    | none => processChunks last rest
    | some text =>
      if (pyDelta last text).isEmpty then processChunks last rest
      else (pyDelta last text :: (processChunks text rest).1,
            (processChunks text rest).2)

/-- Stream events produced by the streaming path (the `StreamEvent` union:
`meta`, `delta`, `final`, plus the `error` terminal produced by the
app-level wrapper). -/
inductive Event where
  | meta (thread_id : Str) (message_id : Option Str)
  | delta (content : Str)
  | final (response : Str) (thread_id : Str) (message_id : Option Str)
  | error (message : Str)
deriving DecidableEq

/-- One engine execution as observed by `search_streaming`: the cumulative
chunks the iteration yields, an optional failure raised during iteration
(after the listed chunks were consumed), and the checkpoint id resolved
from `agent.get_state` after a successful run. -/
structure EngineRun where
  chunks : List Chunk
  failure : Option Str
  resolvedCheckpoint : Option Str
deriving DecidableEq

/-- agent.py `search_streaming` as a generator over one engine run:
the events it yields, paired with the failure it propagates (the generator
body has no handler around the iteration, so a failure escapes after the
events yielded so far).  `tid` is the resolved thread id (caller-supplied
or freshly generated) and `mid` the caller-supplied time-travel
checkpoint id. -/
def search_streaming (tid : Str) (mid : Option Str) (run : EngineRun) :
    List Event × Option Str :=
  let r := processChunks [] run.chunks
  match run.failure with
  | some e => (Event.meta tid mid :: r.1.map Event.delta, some e)
  | none =>
      (Event.meta tid mid :: r.1.map Event.delta ++
        [Event.final r.2 tid run.resolvedCheckpoint], none)

/-- app.py `api_chat`'s `event_generator`, at the stream-event level: it
consumes `search_streaming` and converts a failure thrown during iteration
into a terminal `error` event instead of propagating it. -/
def api_chat_events (tid : Str) (mid : Option Str) (run : EngineRun) :
    List Event :=
  match search_streaming tid mid run with
  | (evs, none) => evs
  | (evs, some e) => evs ++ [Event.error e]

/-- Contents of the delta events of a stream, in order. -/
def deltaContents : List Event → List Str
  | [] => []
  | Event.delta s :: rest => s :: deltaContents rest
  | Event.meta _ _ :: rest => deltaContents rest
  | Event.final _ _ _ :: rest => deltaContents rest
  | Event.error _ :: rest => deltaContents rest

/-- Concatenation of all delta contents of a stream. -/
def concatDeltas (evs : List Event) : Str := (deltaContents evs).flatten

/-- Response fields of the final events of a stream, in order. -/
def finalResponses : List Event → List Str
  | [] => []
  | Event.final r _ _ :: rest => r :: finalResponses rest
  | Event.meta _ _ :: rest => finalResponses rest
  | Event.delta _ :: rest => finalResponses rest
  | Event.error _ :: rest => finalResponses rest

/-- Message-id fields of the meta events of a stream, in order. -/
def metaIds : List Event → List (Option Str)
  | [] => []
  | Event.meta _ m :: rest => m :: metaIds rest
  | Event.delta _ :: rest => metaIds rest
  | Event.final _ _ _ :: rest => metaIds rest
  | Event.error _ :: rest => metaIds rest

/-- Message-id fields of the final events of a stream, in order. -/
def finalIds : List Event → List (Option Str)
  | [] => []
  | Event.final _ _ m :: rest => m :: finalIds rest
  | Event.meta _ _ :: rest => finalIds rest
  | Event.delta _ :: rest => finalIds rest
  | Event.error _ :: rest => finalIds rest

/-- Spec-level delta algorithm (DeltaStreamEmitter): over the already
filtered cumulative texts, emit the suffix when the previous emission is a
prefix, else the entire text, skipping empty deltas; also returns the final
`last_emitted`. -/
def emitterSpec (last : Str) : List Str → List Str × Str
  | [] => ([], last)
  | text :: ts =>
    if (pyDelta last text).isEmpty then emitterSpec last ts
    else (pyDelta last text :: (emitterSpec text ts).1, (emitterSpec text ts).2)

/-- Chain condition under which no reset is triggered: along the diff loop,
every text that leads to an emission has the current `last_emitted` as a
prefix. -/
def prefixChain (last : Str) : List Chunk → Bool
  | [] => true
  | c :: rest =>
    match chunkTextOf c with
    | none => prefixChain last rest
    | some text =>
      if (pyDelta last text).isEmpty then prefixChain last rest
      else last.isPrefixOf text && prefixChain text rest

/-! ## Thread stores (agent.py `get_thread_list`, `rename_thread`,
`delete_thread`) -/

/-- One stored message as seen inside a checkpoint's `channel_values`:
its `type` attribute (for example "human", "ai") and its content. -/
structure Msg where
  type : String
  content : Content
deriving DecidableEq

/-- One row of the `checkpoints` table, restricted to the fields the
lifecycle operations read: the owning thread and the message snapshot in
`channel_values["messages"]`. -/
structure CheckpointRow where
  thread_id : Str
  messages : List Msg
deriving DecidableEq

/-- One row of the `writes` table (only its thread key matters here). -/
structure WriteRow where
  thread_id : Str
deriving DecidableEq

/-- One row of the `thread_metadata` table (`ThreadMetadata`).  Timestamps
are modelled as naturals; the title field holds the stored content
(`rename_thread` stores a string, the transient list entries store a raw
message content). -/
structure MetaRow where
  thread_id : Str
  title : Content
  created_at : Nat
  updated_at : Nat
deriving DecidableEq

/-- The durable state behind both stores: the checkpoint log (newest row
first), the writes table and the thread-metadata table. -/
structure DB where
  checkpoints : List CheckpointRow
  writes : List WriteRow
  metadata : List MetaRow
deriving DecidableEq

/-- `checkpointer.get_tuple(config)` for a thread id: the latest (first
stored) checkpoint row of that thread, if any. -/
def get_tuple (db : DB) (tid : Str) : Option CheckpointRow :=
  db.checkpoints.find? (fun r => r.thread_id == tid)

/-- Lookup of the metadata row of a thread
(`select(ThreadMetadata).where(thread_id == tid)` / `.first()`). -/
def findMeta (db : DB) (tid : Str) : Option MetaRow :=
  db.metadata.find? (fun m => m.thread_id == tid)

/-- Thread ids obtained by scanning all stored checkpoints
(`checkpointer.list(config=None)` collected into a set); a falsy
(empty-string) thread id is skipped by the scan's `if thread_id:`
guard. -/
def threadIds (db : DB) : List Str :=
  ((db.checkpoints.map (fun r => r.thread_id)).filter
    (fun tid => !tid.isEmpty)).dedup

/-- First message of the snapshot whose `type` is "human". -/
def firstHuman (msgs : List Msg) : Option Msg :=
  msgs.find? (fun m => m.type == "human")

/-- Title fallback of `get_thread_list` for a thread without stored
metadata: the content of the first human message of the thread's head
checkpoint, kept only when truthy (`if title:`). -/
def derivedTitle (db : DB) (tid : Str) : Option Content :=
  match get_tuple db tid with
  | none => none
  | some row =>
    match firstHuman row.messages with
    | none => none
    | some m => if m.content.truthy then some m.content else none

/-- Loop body of `get_thread_list` for one thread id: the stored metadata
row when present, otherwise a transient row built from the derived title
(with fresh timestamps, not persisted); `none` when the thread is not
appended to the result. -/
def listEntry (db : DB) (now : Nat) (tid : Str) : Option MetaRow :=
  match findMeta db tid with
  | some m => some m
  | none =>
    match derivedTitle db tid with
    | some t => some ⟨tid, t, now, now⟩
    | none => none

/-- agent.py `get_thread_list`: for every thread id found in the
checkpoint log, use the stored metadata row when present, otherwise build
a transient row from the derived title; threads with neither are not
appended.  `now` models `datetime.now()`. -/
def get_thread_list (db : DB) (now : Nat) : List MetaRow :=
  (threadIds db).filterMap (listEntry db now)

/-- agent.py `rename_thread`: fail when the thread has no checkpoint;
otherwise update title and `updated_at` of an existing metadata row, or
insert a fresh row with `created_at = updated_at = now`. -/
def rename_thread (db : DB) (tid : Str) (new_title : Str) (now : Nat) :
    Bool × DB :=
  match get_tuple db tid with
  | none => (false, db)
  | some _ =>
    match findMeta db tid with
    | some _ =>
        (true, { db with metadata := db.metadata.map fun m =>
          if m.thread_id == tid then
            { m with title := Content.str new_title, updated_at := now }
          else m })
    | none =>
        (true, { db with metadata :=
          db.metadata ++ [⟨tid, Content.str new_title, now, now⟩] })

/-- agent.py `delete_thread`: fail when the checkpoints table holds no row
for the thread; otherwise delete its checkpoint and writes rows and commit,
then delete its metadata row.  `metaFault = true` models an exception
raised during the metadata-store step: the handler returns `false`, but the
checkpoint deletion is already committed (`conn.rollback()` cannot undo
it). -/
def delete_thread (db : DB) (tid : Str) (metaFault : Bool) : Bool × DB :=
  if db.checkpoints.countP (fun r => r.thread_id == tid) == 0 then
    (false, db)
  else
    let db1 : DB :=
      { db with
        checkpoints := db.checkpoints.filter (fun r => !(r.thread_id == tid)),
        writes := db.writes.filter (fun w => !(w.thread_id == tid)) }
    if metaFault then (false, db1)
    else
      (true, { db1 with
        metadata := db1.metadata.filter (fun m => !(m.thread_id == tid)) })

/-! ## Concrete states used by counterexamples and witnesses -/

/-- Engine run exercising the reset case: cumulative texts "ab" then "c"
(the second chunk does not extend the first). -/
def resetRun : EngineRun :=
  ⟨[⟨"AIMessageChunk", some (Content.str (chars "ab"))⟩,
    ⟨"AIMessageChunk", some (Content.str (chars "c"))⟩], none, none⟩

/-- Engine run whose cumulative texts form a chain: "ab" then "abc". -/
def chainRun : EngineRun :=
  ⟨[⟨"AIMessageChunk", some (Content.str (chars "ab"))⟩,
    ⟨"AIMessageChunk", some (Content.str (chars "abc"))⟩], none,
   some (chars "cp")⟩

/-- Store state with one thread "t" whose head checkpoint contains no human
message, and no metadata row. -/
def noHumanDB : DB :=
  ⟨[⟨chars "t", [⟨"ai", Content.str (chars "hi")⟩]⟩], [], []⟩

/-- Store state with one thread "t" whose head checkpoint starts with a
human message, and no metadata row. -/
def humanDB : DB :=
  ⟨[⟨chars "t", [⟨"human", Content.str (chars "hi")⟩]⟩], [], []⟩

/-- Store state with one thread "t": one checkpoint with a human message,
one writes row, and a stored metadata row. -/
def fullDB : DB :=
  ⟨[⟨chars "t", [⟨"human", Content.str (chars "hello")⟩]⟩],
   [⟨chars "t"⟩], [⟨chars "t", Content.str (chars "old"), 3, 4⟩]⟩

/-- Store state with one thread "t" with a checkpoint and no metadata. -/
def renameDB : DB := ⟨[⟨chars "t", []⟩], [], []⟩

/-- Store state with two threads: "t" has a human message, "u" has only an
assistant message; neither has stored metadata. -/
def mixedDB : DB :=
  ⟨[⟨chars "t", [⟨"human", Content.str (chars "hi")⟩]⟩,
    ⟨chars "u", [⟨"ai", Content.str (chars "x")⟩]⟩], [], []⟩

/-- Store state with no rows at all. -/
def emptyDB : DB := ⟨[], [], []⟩

/-! ## Helper lemmas -/

lemma prefix_append_drop :
    ∀ l t : Str, l.isPrefixOf t = true → l ++ t.drop l.length = t := by
  intro l
  induction l with
  | nil => intro t _; simp
  | cons a as ih =>
    intro t h
    cases t with
    | nil => simp [List.isPrefixOf] at h
    | cons b bs =>
      simp only [List.isPrefixOf, Bool.and_eq_true, beq_iff_eq] at h
      obtain ⟨rfl, h2⟩ := h
      simpa using ih bs h2

lemma pyDelta_append (l t : Str) (h : l.isPrefixOf t = true) :
    l ++ pyDelta l t = t := by
  unfold pyDelta
  rw [if_pos h]
  exact prefix_append_drop l t h

lemma processChunks_eq_emitterSpec :
    ∀ (cs : List Chunk) (last : Str),
      processChunks last cs = emitterSpec last (cs.filterMap chunkTextOf) := by
  intro cs
  induction cs with
  | nil => intro last; rfl
  | cons c rest ih =>
    intro last
    simp only [processChunks, List.filterMap_cons]
    cases hct : chunkTextOf c with
    | none => exact ih last
    | some text =>
      simp only [emitterSpec]
      by_cases hd : (pyDelta last text).isEmpty = true
      · rw [if_pos hd, if_pos hd]; exact ih last
      · rw [if_neg hd, if_neg hd, ih text]

lemma processChunks_chain :
    ∀ (cs : List Chunk) (last : Str), prefixChain last cs = true →
      last ++ (processChunks last cs).1.flatten = (processChunks last cs).2 := by
  intro cs
  induction cs with
  | nil => intro last _; simp [processChunks]
  | cons c rest ih =>
    intro last h
    cases hct : chunkTextOf c with
    | none =>
      simp only [processChunks, prefixChain, hct] at h ⊢
      exact ih last h
    | some text =>
      simp only [processChunks, prefixChain, hct] at h ⊢
      by_cases hd : (pyDelta last text).isEmpty = true
      · rw [if_pos hd] at h ⊢; exact ih last h
      · rw [if_neg hd] at h ⊢
        rw [Bool.and_eq_true] at h
        obtain ⟨h1, h2⟩ := h
        have := ih text h2
        calc last ++ (pyDelta last text :: (processChunks text rest).1).flatten
            = (last ++ pyDelta last text) ++ (processChunks text rest).1.flatten := by
              simp [List.flatten_cons, List.append_assoc]
          _ = text ++ (processChunks text rest).1.flatten := by rw [pyDelta_append last text h1]
          _ = (processChunks text rest).2 := this

lemma deltaContents_append (a b : List Event) :
    deltaContents (a ++ b) = deltaContents a ++ deltaContents b := by
  induction a with
  | nil => rfl
  | cons e rest ih => cases e <;> simp [deltaContents, ih]

lemma deltaContents_map_delta (ds : List Str) :
    deltaContents (ds.map Event.delta) = ds := by
  induction ds with
  | nil => rfl
  | cons d rest ih => simp [deltaContents, ih]

lemma finalResponses_append (a b : List Event) :
    finalResponses (a ++ b) = finalResponses a ++ finalResponses b := by
  induction a with
  | nil => rfl
  | cons e rest ih => cases e <;> simp [finalResponses, ih]

lemma finalResponses_map_delta (ds : List Str) :
    finalResponses (ds.map Event.delta) = [] := by
  induction ds with
  | nil => rfl
  | cons d rest ih => simp [finalResponses, ih]

lemma metaIds_append (a b : List Event) :
    metaIds (a ++ b) = metaIds a ++ metaIds b := by
  induction a with
  | nil => rfl
  | cons e rest ih => cases e <;> simp [metaIds, ih]

lemma metaIds_map_delta (ds : List Str) :
    metaIds (ds.map Event.delta) = [] := by
  induction ds with
  | nil => rfl
  | cons d rest ih => simp [metaIds, ih]

lemma finalIds_append (a b : List Event) :
    finalIds (a ++ b) = finalIds a ++ finalIds b := by
  induction a with
  | nil => rfl
  | cons e rest ih => cases e <;> simp [finalIds, ih]

lemma finalIds_map_delta (ds : List Str) :
    finalIds (ds.map Event.delta) = [] := by
  induction ds with
  | nil => rfl
  | cons d rest ih => simp [finalIds, ih]

lemma api_chat_events_eq (tid : Str) (mid : Option Str) (run : EngineRun) :
    api_chat_events tid mid run =
      Event.meta tid mid :: ((processChunks [] run.chunks).1.map Event.delta ++
        [match run.failure with
         | none => Event.final (processChunks [] run.chunks).2 tid
             run.resolvedCheckpoint
         | some e => Event.error e]) := by
  unfold api_chat_events search_streaming
  cases run.failure <;> simp

lemma countP_filter_not {α : Type} (l : List α) (p : α → Bool) :
    (l.filter fun a => !(p a)).countP p = 0 := by
  induction l with
  | nil => rfl
  | cons a l ih =>
    by_cases h : p a = true
    · simp [List.filter_cons, h, ih]
    · simp only [Bool.not_eq_true] at h
      simp [List.filter_cons, List.countP_cons, h, ih]

lemma find?_filter_not {α : Type} (l : List α) (p : α → Bool) :
    (l.filter fun a => !(p a)).find? p = none := by
  induction l with
  | nil => rfl
  | cons a l ih =>
    by_cases h : p a = true
    · simp [List.filter_cons, h, ih]
    · simp only [Bool.not_eq_true] at h
      simp [List.filter_cons, List.find?_cons, h, ih]

lemma find?_append_none {α : Type} (p : α → Bool) (l l' : List α)
    (h : l.find? p = none) : (l ++ l').find? p = l'.find? p := by
  induction l with
  | nil => rfl
  | cons a l ih =>
    have h1 : ¬ p a = true := by
      intro hp
      have := List.find?_eq_none.mp h a (by simp)
      exact this hp
    have h2 : l.find? p = none := by
      rw [List.find?_eq_none] at h ⊢
      intro x hx
      exact h x (by simp [hx])
    rw [List.cons_append, List.find?_cons_of_neg _ h1]
    exact ih h2

lemma findMeta_map_rename (l : List MetaRow) (tid : Str) (title : Str)
    (now : Nat) :
    (l.map fun m => if m.thread_id == tid then
        { m with title := Content.str title, updated_at := now } else m).find?
      (fun m => m.thread_id == tid) =
    (l.find? fun m => m.thread_id == tid).map
      (fun m => { m with title := Content.str title, updated_at := now }) := by
  induction l with
  | nil => rfl
  | cons a l ih =>
    simp only [List.map_cons]
    by_cases h : (a.thread_id == tid) = true
    · rw [if_pos h]
      simp only [List.find?, h]
      rfl
    · have hf : (a.thread_id == tid) = false := by
        rw [Bool.not_eq_true] at h
        exact h
      rw [if_neg (by simp [hf])]
      simp only [List.find?, hf, ih]

lemma rename_thread_checkpoints (db : DB) (tid : Str) (t : Str) (now : Nat) :
    ((rename_thread db tid t now).2).checkpoints = db.checkpoints := by
  unfold rename_thread
  cases get_tuple db tid with
  | none => rfl
  | some _ =>
    cases findMeta db tid with
    | none => rfl
    | some _ => rfl

lemma listEntry_thread_id {db : DB} {now : Nat} {tid : Str} {m : MetaRow}
    (h : listEntry db now tid = some m) : m.thread_id = tid := by
  unfold listEntry at h
  cases hf : findMeta db tid with
  | some m0 =>
    rw [hf] at h
    injection h with h
    subst h
    have := List.find?_some hf
    simpa using this
  | none =>
    rw [hf] at h
    cases hd : derivedTitle db tid with
    | none => rw [hd] at h; exact absurd h (by simp)
    | some t =>
      rw [hd] at h
      injection h with h
      subst h
      rfl

lemma mem_get_thread_list_iff {db : DB} {now : Nat} {m : MetaRow} :
    m ∈ get_thread_list db now ↔
      ∃ tid, tid ∈ threadIds db ∧ listEntry db now tid = some m := by
  unfold get_thread_list
  rw [List.mem_filterMap]

lemma thread_list_ids_subset {db : DB} {now : Nat} {m : MetaRow}
    (hm : m ∈ get_thread_list db now) : m.thread_id ∈ threadIds db := by
  obtain ⟨tid, htid, hentry⟩ := mem_get_thread_list_iff.mp hm
  rw [listEntry_thread_id hentry]
  exact htid

lemma not_mem_threadIds_filter (cps : List CheckpointRow)
    (ws : List WriteRow) (ms : List MetaRow) (tid : Str) :
    tid ∉ threadIds ⟨cps.filter (fun r => !(r.thread_id == tid)), ws, ms⟩ := by
  unfold threadIds
  intro h
  rw [List.mem_dedup, List.mem_filter] at h
  obtain ⟨r, hr, hrt⟩ := List.mem_map.mp h.1
  rw [List.mem_filter] at hr
  have := hr.2
  rw [hrt] at this
  simp at this

lemma findMeta_rename_title (db : DB) (tid : Str) (title : Str) (now : Nat)
    (cp : CheckpointRow) (hcp : get_tuple db tid = some cp) :
    ∃ m1, findMeta (rename_thread db tid title now).2 tid = some m1 ∧
      m1.title = Content.str title :=
  match hfm : findMeta db tid with
  | none => by
    refine ⟨⟨tid, Content.str title, now, now⟩, ?_, rfl⟩
    simp only [rename_thread, hcp, hfm]
    unfold findMeta at hfm ⊢
    rw [find?_append_none _ _ _ hfm]
    simp [List.find?]
  | some m => by
    refine ⟨{ m with title := Content.str title, updated_at := now }, ?_, rfl⟩
    simp only [rename_thread, hcp, hfm]
    unfold findMeta at hfm ⊢
    rw [findMeta_map_rename, hfm]
    rfl

lemma rename_thread_update (db : DB) (tid : Str) (title : Str) (now : Nat)
    (cp : CheckpointRow) (hcp : get_tuple db tid = some cp)
    (m : MetaRow) (hm : findMeta db tid = some m) :
    rename_thread db tid title now =
      (true, { db with metadata := db.metadata.map fun m0 =>
        if m0.thread_id == tid then
          { m0 with title := Content.str title, updated_at := now }
        else m0 }) := by
  simp only [rename_thread, hcp, hm]

lemma extractParts_eq_filterMap (bs : List Block) :
    extractParts bs = bs.filterMap blockText := by
  induction bs with
  | nil => rfl
  | cons b rest ih => cases b <;> simp [extractParts, blockText, ih]

/-! ## Claim theorems -/

/-- C1 counterexample: the claim that concatenating all delta contents
equals the final response for any chunk sequence, including the reset
case, fails on the code: with cumulative texts "ab" then "c" the stream's
deltas concatenate to "abc" while the final response is "c". -/
theorem C1_counterexample :
    concatDeltas (api_chat_events (chars "t") none resetRun) = chars "abc" ∧
    finalResponses (api_chat_events (chars "t") none resetRun) = [chars "c"] ∧
    chars "abc" ≠ chars "c" := by decide

/-- C1 (amended): for chunk sequences in which no reset occurs — every
cumulative text that leads to an emission has the previously emitted text
as a prefix (`prefixChain`) — the concatenation of all emitted delta
contents equals the response of the final event. -/
theorem C1_amended_reconstruction (tid : Str) (mid : Option Str)
    (run : EngineRun) (hf : run.failure = none)
    (hchain : prefixChain [] run.chunks = true) :
    finalResponses (api_chat_events tid mid run) =
      [concatDeltas (api_chat_events tid mid run)] := by
  have hev := api_chat_events_eq tid mid run
  rw [hf] at hev
  rw [hev]
  have hchainEq := processChunks_chain run.chunks [] hchain
  simp only [List.nil_append] at hchainEq
  simp [finalResponses, finalResponses_append, finalResponses_map_delta,
        concatDeltas, deltaContents, deltaContents_append,
        deltaContents_map_delta, hchainEq]

/-- C1 amended witness: the amended reconstruction applied to the chained
run with cumulative texts "ab", "abc". -/
theorem C1_amended_reconstruction_witness :
    finalResponses (api_chat_events (chars "t") none chainRun) =
      [concatDeltas (api_chat_events (chars "t") none chainRun)] :=
  C1_amended_reconstruction (chars "t") none chainRun rfl (by decide)

/-- C2: the delta computation maintains `last_emitted` (initially empty in
`search_streaming`); for each cumulative text the delta is the remaining
suffix when `last_emitted` is a prefix of it and the entire text
otherwise, and a chunk whose delta is empty emits no event: the streaming
loop equals the spec algorithm `emitterSpec` over the filtered texts, and
the stream's delta events are those of `emitterSpec` started from the
empty string. -/
theorem C2_delta_algorithm (last : Str) (cs : List Chunk) (tid : Str)
    (mid : Option Str) (run : EngineRun) :
    processChunks last cs = emitterSpec last (cs.filterMap chunkTextOf) ∧
    deltaContents (api_chat_events tid mid run) =
      (emitterSpec [] (run.chunks.filterMap chunkTextOf)).1 := by
  constructor
  · exact processChunks_eq_emitterSpec cs last
  · rw [api_chat_events_eq]
    cases run.failure <;>
      simp [deltaContents, deltaContents_append, deltaContents_map_delta,
            processChunks_eq_emitterSpec]

/-- C3: every stream of the streaming path (`search_streaming` composed
with the app-level recovery of `api_chat`) consists of exactly one meta
event first, then delta events only, then exactly one terminal event —
final on success, error on failure; a failure raised during iteration is
turned into the terminal error event by `api_chat_events` rather than
propagated. -/
theorem C3_event_shape (tid : Str) (mid : Option Str) (run : EngineRun) :
    ∃ ds : List Str,
      api_chat_events tid mid run =
        Event.meta tid mid :: (ds.map Event.delta ++
          [match run.failure with
           | none => Event.final (processChunks [] run.chunks).2 tid
               run.resolvedCheckpoint
           | some e => Event.error e]) :=
  ⟨(processChunks [] run.chunks).1, api_chat_events_eq tid mid run⟩

/-- C7: text extraction surfaces only textual content: a plain string is
returned unchanged, and a block list yields the in-order concatenation of
the "text" fields of dict blocks that have one and of bare string blocks
(`blockText`), ignoring every other block. -/
theorem C7_extract_text_only (s : Str) (bs : List Block) :
    _extract_content (Content.str s) = s ∧
    _extract_content (Content.blocks bs) = (bs.filterMap blockText).flatten :=
  ⟨rfl, by simp [_extract_content, extractParts_eq_filterMap]⟩

/-- C8: the initial meta event carries exactly the caller-supplied
time-travel checkpoint id `mid` (none when the caller supplied none), and
only the terminal final event carries the checkpoint id resolved from
engine state after the call completes (present exactly on success). -/
theorem C8_meta_vs_final_ids (tid : Str) (mid : Option Str)
    (run : EngineRun) :
    (search_streaming tid mid run).1.head? = some (Event.meta tid mid) ∧
    metaIds (search_streaming tid mid run).1 = [mid] ∧
    finalIds (search_streaming tid mid run).1 =
      (match run.failure with
       | none => [run.resolvedCheckpoint]
       | some _ => []) := by
  unfold search_streaming
  cases run.failure <;>
    simp [metaIds, finalIds, metaIds_append, finalIds_append,
          metaIds_map_delta, finalIds_map_delta]

/-- C4: delete_thread returns false when the checkpoint log holds no row
for the thread, leaving the state unchanged; otherwise it returns true
after removing every checkpoint row and writes row of the thread and the
metadata row if present, after which the thread no longer appears in the
thread list and a second delete of the same id returns false. -/
theorem C4_delete_contract (db : DB) (tid : Str) (now : Nat) :
    (db.checkpoints.countP (fun r => r.thread_id == tid) = 0 →
      delete_thread db tid false = (false, db)) ∧
    (db.checkpoints.countP (fun r => r.thread_id == tid) ≠ 0 →
      (delete_thread db tid false).1 = true ∧
      (delete_thread db tid false).2.checkpoints.countP
        (fun r => r.thread_id == tid) = 0 ∧
      (delete_thread db tid false).2.writes.countP
        (fun w => w.thread_id == tid) = 0 ∧
      findMeta (delete_thread db tid false).2 tid = none ∧
      (∀ m ∈ get_thread_list (delete_thread db tid false).2 now,
        m.thread_id ≠ tid) ∧
      (delete_thread (delete_thread db tid false).2 tid false).1 = false) := by
  constructor
  · intro h
    simp [delete_thread, h]
  · intro h
    have hcond :
        (db.checkpoints.countP (fun r => r.thread_id == tid) == 0) = false := by
      simpa using h
    simp only [delete_thread, hcond, Bool.false_eq_true, if_false,
      Bool.true_eq_false]
    refine ⟨trivial, countP_filter_not _ _, countP_filter_not _ _,
      find?_filter_not _ _, ?_, ?_⟩
    · intro m hm heq
      have hmem := thread_list_ids_subset hm
      rw [heq] at hmem
      exact not_mem_threadIds_filter _ _ _ tid hmem
    · simp [delete_thread, countP_filter_not]

/-- C4 witness: concrete instances of both branches of the delete
contract. -/
theorem C4_delete_contract_witness :
    (delete_thread fullDB (chars "t") false).1 = true ∧
    delete_thread emptyDB (chars "t") false = (false, emptyDB) :=
  ⟨((C4_delete_contract fullDB (chars "t") 0).2 (by decide)).1,
   (C4_delete_contract emptyDB (chars "t") 0).1 (by decide)⟩

/-- C5 counterexample: a thread whose head checkpoint contains no human
message and that has no stored metadata is dropped from the thread list
entirely rather than listed with an empty or absent title: thread "t"
exists in the checkpoint log of `noHumanDB` but `get_thread_list` returns
the empty list. -/
theorem C5_counterexample :
    chars "t" ∈ threadIds noHumanDB ∧ get_thread_list noHumanDB 0 = [] := by
  decide

/-- C5 (amended): get_thread_list returns entries only for thread ids
found by scanning the checkpoint log; a thread with a stored metadata
record is listed with that record; a thread without one is listed with a
transient record whose title derives from the first human message of its
head checkpoint; and a thread with neither a stored record nor a (truthy)
first human message is omitted from the returned list entirely. -/
theorem C5_amended_thread_list (db : DB) (now : Nat) (tid : Str) :
    (∀ m ∈ get_thread_list db now, m.thread_id ∈ threadIds db) ∧
    (tid ∈ threadIds db → ∀ m, findMeta db tid = some m →
      m ∈ get_thread_list db now) ∧
    (tid ∈ threadIds db → findMeta db tid = none →
      ∀ t, derivedTitle db tid = some t →
        (⟨tid, t, now, now⟩ : MetaRow) ∈ get_thread_list db now) ∧
    (findMeta db tid = none → derivedTitle db tid = none →
      ∀ m ∈ get_thread_list db now, m.thread_id ≠ tid) := by
  refine ⟨fun m hm => thread_list_ids_subset hm, ?_, ?_, ?_⟩
  · intro htid m hm
    exact mem_get_thread_list_iff.mpr
      ⟨tid, htid, by unfold listEntry; rw [hm]⟩
  · intro htid hfm t hd
    exact mem_get_thread_list_iff.mpr
      ⟨tid, htid, by unfold listEntry; rw [hfm, hd]⟩
  · intro hfm hd m hm heq
    obtain ⟨tid', htid', hentry⟩ := mem_get_thread_list_iff.mp hm
    have hmid := listEntry_thread_id hentry
    rw [heq] at hmid
    subst hmid
    unfold listEntry at hentry
    rw [hfm, hd] at hentry
    exact absurd hentry (by simp)

/-- C5 amended witness: the stored row of `fullDB` is listed; the derived
transient row of `humanDB` is listed; thread "t" of `noHumanDB` yields no
entry. -/
theorem C5_amended_thread_list_witness :
    (⟨chars "t", Content.str (chars "old"), 3, 4⟩ : MetaRow) ∈
      get_thread_list fullDB 0 ∧
    (⟨chars "t", Content.str (chars "hi"), 7, 7⟩ : MetaRow) ∈
      get_thread_list humanDB 7 ∧
    (⟨chars "t", Content.str (chars "hi"), 0, 0⟩ : MetaRow).thread_id ≠
      chars "u" :=
  ⟨(C5_amended_thread_list fullDB 0 (chars "t")).2.1 (by decide) _ (by decide),
   (C5_amended_thread_list humanDB 7 (chars "t")).2.2.1 (by decide)
     (by decide) _ (by decide),
   (C5_amended_thread_list mixedDB 0 (chars "u")).2.2.2 (by decide)
     (by decide) _ (by decide)⟩

/-- C6: rename_thread returns false when the thread has no checkpoint;
otherwise it returns true and upserts the metadata record — inserting a
fresh record with created_at = updated_at = now when absent, updating
title and updated_at when present — and renaming twice with the same
title leaves the stored title unchanged after the second call. -/
theorem C6_rename_upsert (db : DB) (tid : Str) (title : Str)
    (now now2 : Nat) :
    (get_tuple db tid = none → rename_thread db tid title now = (false, db)) ∧
    (get_tuple db tid ≠ none →
      (rename_thread db tid title now).1 = true ∧
      (findMeta db tid = none →
        findMeta (rename_thread db tid title now).2 tid =
          some ⟨tid, Content.str title, now, now⟩) ∧
      (∀ m, findMeta db tid = some m →
        findMeta (rename_thread db tid title now).2 tid =
          some { m with title := Content.str title, updated_at := now }) ∧
      (Option.map (fun m => m.title)
          (findMeta (rename_thread (rename_thread db tid title now).2
            tid title now2).2 tid) =
        Option.map (fun m => m.title)
          (findMeta (rename_thread db tid title now).2 tid))) := by
  constructor
  · intro h
    simp [rename_thread, h]
  · intro h
    obtain ⟨cp, hcp⟩ := Option.ne_none_iff_exists'.mp h
    refine ⟨?_, ?_, ?_, ?_⟩
    · cases hfm : findMeta db tid <;> simp [rename_thread, hcp, hfm]
    · intro hfm
      simp only [rename_thread, hcp, hfm]
      unfold findMeta at hfm ⊢
      rw [find?_append_none _ _ _ hfm]
      simp [List.find?]
    · intro m hm
      simp only [rename_thread, hcp, hm]
      unfold findMeta at hm ⊢
      rw [findMeta_map_rename, hm]
      rfl
    · obtain ⟨m1, hm1, ht1⟩ := findMeta_rename_title db tid title now cp hcp
      have hck : get_tuple (rename_thread db tid title now).2 tid = some cp := by
        unfold get_tuple
        rw [rename_thread_checkpoints]
        exact hcp
      rw [rename_thread_update (rename_thread db tid title now).2 tid title
        now2 cp hck m1 hm1]
      unfold findMeta at hm1 ⊢
      rw [findMeta_map_rename, hm1]
      simp [ht1]

/-- C6 witness: renaming thread "t" of `renameDB` (one checkpoint, no
metadata) succeeds and inserts the fresh metadata row. -/
theorem C6_rename_upsert_witness :
    findMeta (rename_thread renameDB (chars "t") (chars "Title") 5).2
      (chars "t") = some ⟨chars "t", Content.str (chars "Title"), 5, 5⟩ :=
  ((C6_rename_upsert renameDB (chars "t") (chars "Title") 5 7).2
    (by decide)).2.1 (by decide)

/-- C9: when rename_thread touches an existing metadata record, every
field other than title and updated_at is unchanged: the thread_id and
created_at of the record found after the rename equal their values
before. -/
theorem C9_rename_frame (db : DB) (tid : Str) (title : Str) (now : Nat)
    (m m' : MetaRow) (hm : findMeta db tid = some m)
    (hm' : findMeta (rename_thread db tid title now).2 tid = some m') :
    m'.thread_id = m.thread_id ∧ m'.created_at = m.created_at := by
  cases hcp : get_tuple db tid with
  | none =>
    rw [show rename_thread db tid title now = (false, db) by
      simp [rename_thread, hcp]] at hm'
    rw [hm] at hm'
    injection hm' with h
    rw [← h]
    exact ⟨rfl, rfl⟩
  | some cp =>
    have hupd : findMeta (rename_thread db tid title now).2 tid =
        some { m with title := Content.str title, updated_at := now } := by
      simp only [rename_thread, hcp, hm]
      unfold findMeta at hm ⊢
      rw [findMeta_map_rename, hm]
      rfl
    rw [hupd] at hm'
    injection hm' with h
    rw [← h]
    exact ⟨rfl, rfl⟩

/-- C9 witness: renaming thread "t" of `fullDB` preserves the stored
row's thread id and creation time. -/
theorem C9_rename_frame_witness :
    (⟨chars "t", Content.str (chars "new"), 3, 9⟩ : MetaRow).thread_id =
      (⟨chars "t", Content.str (chars "old"), 3, 4⟩ : MetaRow).thread_id ∧
    (⟨chars "t", Content.str (chars "new"), 3, 9⟩ : MetaRow).created_at =
      (⟨chars "t", Content.str (chars "old"), 3, 4⟩ : MetaRow).created_at :=
  C9_rename_frame fullDB (chars "t") (chars "new") 9 _ _ (by decide)
    (by decide)

/-- C10: delete_thread is not atomic with respect to its boolean result:
when the metadata-store step raises after the checkpoint deletion has
committed, delete_thread returns false although every checkpoint row of
the thread is permanently gone, so a false return does not imply the
stores are unchanged. -/
theorem C10_delete_nonatomic :
    ∃ (db : DB) (tid : Str),
      db.checkpoints.countP (fun r => r.thread_id == tid) ≠ 0 ∧
      (delete_thread db tid true).1 = false ∧
      (delete_thread db tid true).2.checkpoints.countP
        (fun r => r.thread_id == tid) = 0 ∧
      (delete_thread db tid true).2 ≠ db :=
  ⟨fullDB, chars "t", by decide⟩

end ChatApp
